import Mathlib

/-!
Verification of the image-processing transform kernels of the repository
(my_grayscale.c with grayscale_serial / grayscale_parallel and, in the same
file, transpose_serial / transpose_parallel, plus my_alphablend.c with
alphablend_serial and its dimension-checking main).

The C programs operate on images stored as an array of row pointers
(JSAMPARRAY), each row holding 3*width bytes of interleaved RGB data.
We embed a buffer as a list of rows, each row a list of byte values; a
read or write outside the allocated area (undefined behavior in C) is
modelled as failure of the kernel, i.e. the kernel functions return an
Option and yield none as soon as an out-of-bounds access occurs.

The grayscale weighted sum 0.299*R + 0.587*G + 0.114*B and the alpha-blend
sum 0.5*a + 0.5*b are computed by the C code in IEEE-754 double precision
(binary64, round to nearest, ties to even; gcc on x86-64 without fused
multiply-add, each multiplication and addition rounded separately) and then
truncated by the cast to unsigned char.  Every value arising in these
computations is a nonnegative dyadic rational smaller than 2^9, so the
whole double-precision computation is modelled exactly with natural
numbers: a value v is represented by the natural number v * 2^60, and
rounding a real result to the nearest double is rounding the scaled
numerator to 53 significant bits (ties to even).  No overflow, underflow
or subnormal values can occur in the ranges used here, so this model is
exact for the kernels' arithmetic.
-/

namespace ImageProcessing

/-- Floor of the base-2 logarithm, computed by structural recursion on a
fuel parameter so that it reduces inside the kernel. -/
def log2fuel : Nat → Nat → Nat
  | 0, _ => 0
  | fuel + 1, n => if n < 2 then 0 else log2fuel fuel (n / 2) + 1

/-- Floor of the base-2 logarithm for the numbers appearing in this
development (all far below 2 ^ 128). -/
def flog2 (n : Nat) : Nat := log2fuel 128 n

/-- Round the rational a / d to the nearest integer, ties to even. -/
def rneDiv (a d : Nat) : Nat :=
  let q := a / d
  let r := a % d
  if 2 * r < d then q else if d < 2 * r then q + 1 else if q % 2 = 0 then q else q + 1

/-- Round a scaled value to 53 significant bits, ties to even.  If the
scaled numerator n is below 2 ^ 53 the value is exactly representable in
binary64 and is kept; otherwise it is rounded to the nearest multiple of
2 ^ (floor(log2 n) - 52), which is exactly IEEE-754 binary64 rounding of
the represented value (the scale does not matter because the distance to
the binade boundary is scale-invariant). -/
def round53 (n : Nat) : Nat :=
  if n < 2 ^ 53 then n
  else rneDiv n (2 ^ (flog2 n - 52)) * 2 ^ (flog2 n - 52)

/-- The double nearest to the fraction a / b, as a natural number scaled by
2 ^ 60.  This is how the decimal literals 0.299, 0.587, 0.114 and 0.5 of
the C source are converted to binary64 by the compiler. -/
def litD (a b : Nat) : Nat :=
  let n := a * 2 ^ 60
  let e := flog2 (n / b)
  if e ≤ 52 then n / b else rneDiv n (b * 2 ^ (e - 52)) * 2 ^ (e - 52)

/-- The double constant 0.299 of grayscale_serial, scaled by 2 ^ 60. -/
def c299 : Nat := litD 299 1000

/-- The double constant 0.587 of grayscale_serial, scaled by 2 ^ 60. -/
def c587 : Nat := litD 587 1000

/-- The double constant 0.114 of grayscale_serial, scaled by 2 ^ 60. -/
def c114 : Nat := litD 114 1000

/-- The double constant 0.5 of alphablend_serial, scaled by 2 ^ 60. -/
def halfD : Nat := litD 1 2

/-- Double-precision product of a scaled constant with a byte value. -/
def mulD (cn x : Nat) : Nat := round53 (cn * x)

/-- Double-precision sum of two scaled values. -/
def addD (an bn : Nat) : Nat := round53 (an + bn)

/-- The value computed per pixel by grayscale_serial (my_grayscale.c line
106): (unsigned char)(0.299*R + 0.587*G + 0.114*B), evaluated left to
right in double precision; the final division by 2 ^ 60 is the truncating
cast to unsigned char (the result is below 256). -/
def grayVal (r g b : Nat) : Nat :=
  addD (addD (mulD c299 r) (mulD c587 g)) (mulD c114 b) / 2 ^ 60

/-- The value computed per channel by alphablend_serial (my_alphablend.c
lines 106-108): (unsigned char)(0.5*in1 + 0.5*in2) in double precision. -/
def blendVal (a b : Nat) : Nat :=
  addD (mulD halfD a) (mulD halfD b) / 2 ^ 60

/-! ### Pixel buffers

A buffer is the JSAMPARRAY of the C code: a list of rows, each row a list
of byte values of length 3 * width (three channels per pixel). -/

abbrev Row := List Nat

abbrev Buffer := List Row

/-- Read the byte at row i, byte offset k (inbuf[i][k] in the C code);
none when the access is out of bounds. -/
def getByte (buf : Buffer) (i k : Nat) : Option Nat :=
  match buf[i]? with
  | some row => row[k]?
  | none => none

/-- Write the byte at row i, byte offset k (outbuf[i][k] = v in the C
code); none when the access is out of bounds. -/
def setByte (buf : Buffer) (i k v : Nat) : Option Buffer :=
  match buf[i]? with
  | some row => if k < row.length then some (buf.set i (row.set k v)) else none
  | none => none

/-- The buffer allocated by new_image(img, w, h): h rows of 3*w bytes.
The C contents are uninitialized; we fill with zeros (the kernels under
verification overwrite every byte they promise to produce). -/
def allocBuffer (w h : Nat) : Buffer := List.replicate h (List.replicate (3 * w) 0)

/-- Well-formedness of a buffer holding a w-by-h image: h rows, each of
3*w bytes, exactly the invariant established by new_image. -/
def wfBuffer (buf : Buffer) (w h : Nat) : Prop :=
  buf.length = h ∧ ∀ t < h, (buf[t]?).map List.length = some (3 * w)

instance (buf : Buffer) (w h : Nat) : Decidable (wfBuffer buf w h) := by
  unfold wfBuffer; infer_instance

/-- All byte values of a buffer are in the range 0..255 (JSAMPLE values). -/
def byteBounded (buf : Buffer) : Prop :=
  ∀ row ∈ buf, ∀ v ∈ row, v < 256

instance (buf : Buffer) : Decidable (byteBounded buf) := by
  unfold byteBounded; infer_instance

/-- Total read of the byte at row t, offset k (defaulting to 0 out of
bounds); used to state the values produced by the kernels. -/
def byteAt (buf : Buffer) (t k : Nat) : Nat := (buf.getD t []).getD k 0

/-! ### The transform kernels

Each C kernel is a double loop writing into a pre-allocated output buffer.
We embed each loop body as a function of the current output buffer and the
loop counter, and the loops as monadic folds over the ranges of the C
for-statements; the fold fails (returns none) exactly when the C code
would access memory out of bounds. -/

/-- Read the three channels of pixel (i, j): inbuf[i][j*3],
inbuf[i][j*3+1], inbuf[i][j*3+2], in this order. -/
def readPix (inbuf : Buffer) (i j : Nat) : Option (Nat × Nat × Nat) :=
  getByte inbuf i (j * 3) >>= fun r =>
  getByte inbuf i (j * 3 + 1) >>= fun g =>
  getByte inbuf i (j * 3 + 2) >>= fun b => some (r, g, b)

/-- Write the value y into the three consecutive bytes k0, k0+1, k0+2 of
row i (the chained assignment of the C grayscale kernels). -/
def write3 (ob : Buffer) (i k0 y : Nat) : Option Buffer :=
  setByte ob i k0 y >>= fun o1 =>
  setByte o1 i (k0 + 1) y >>= fun o2 =>
  setByte o2 i (k0 + 2) y

/-- Body of the inner loop of grayscale_serial (my_grayscale.c lines
105-108): read the three channels of pixel (i, j), form the luma y, and
write y into the three output channels. -/
def grayBody (inbuf : Buffer) (i : Nat) (ob : Buffer) (j : Nat) : Option Buffer :=
  readPix inbuf i j >>= fun p =>
  write3 ob i (j * 3) (grayVal p.1 p.2.1 p.2.2)

/-- grayscale_serial (my_grayscale.c lines 100-110): for i in 0..height-1,
for j in 0..width-1, process pixel (i, j). -/
def grayscale_serial (inbuf outbuf : Buffer) (width height : Nat) : Option Buffer :=
  ((List.range height).foldlM
    (fun ob i => ((List.range width).foldlM (grayBody inbuf i) ob : Option Buffer))
    outbuf : Option Buffer)

/-- Body of the inner loop of grayscale_parallel (my_grayscale.c lines
122-131): compute the lumas of pixels (i, j) to (i, j+3), then store them.
The reads of columns j+1, j+2, j+3 are performed whether or not those
columns exist. -/
def grayBody4 (inbuf : Buffer) (i : Nat) (ob : Buffer) (j : Nat) : Option Buffer :=
  readPix inbuf i j >>= fun p1 =>
  readPix inbuf i (j + 1) >>= fun p2 =>
  readPix inbuf i (j + 2) >>= fun p3 =>
  readPix inbuf i (j + 3) >>= fun p4 =>
  write3 ob i (j * 3) (grayVal p1.1 p1.2.1 p1.2.2) >>= fun o3 =>
  write3 o3 i ((j + 1) * 3) (grayVal p2.1 p2.2.1 p2.2.2) >>= fun o6 =>
  write3 o6 i ((j + 2) * 3) (grayVal p3.1 p3.2.1 p3.2.2) >>= fun o9 =>
  write3 o9 i ((j + 3) * 3) (grayVal p4.1 p4.2.1 p4.2.2)

/-- grayscale_parallel (my_grayscale.c lines 116-133): the row loop is
identical to the serial kernel (OpenMP distributes its iterations without
changing which iterations run), but the column loop advances by 4, so the
columns visited are the multiples of 4 below width, each iteration
touching columns j to j+3. -/
def grayscale_parallel (inbuf outbuf : Buffer) (width height : Nat) : Option Buffer :=
  ((List.range height).foldlM
    (fun ob i =>
      (((List.range ((width + 3) / 4)).map (fun t => t * 4)).foldlM
        (grayBody4 inbuf i) ob : Option Buffer))
    outbuf : Option Buffer)

/-- One channel assignment of alphablend_serial (my_alphablend.c lines
106-108): outbuf[i][k] = (unsigned char)(0.5*inbuf1[i][k] + 0.5*inbuf2[i][k]). -/
def blendCh (in1 in2 : Buffer) (i : Nat) (ob : Buffer) (k : Nat) : Option Buffer :=
  getByte in1 i k >>= fun a =>
  getByte in2 i k >>= fun b =>
  setByte ob i k (blendVal a b)

/-- Body of the inner loop of alphablend_serial, continued: the three
channel assignments of my_alphablend.c lines 106-108, in source order. -/
def blendBody (in1 in2 : Buffer) (i : Nat) (ob : Buffer) (j : Nat) : Option Buffer :=
  blendCh in1 in2 i ob (j * 3) >>= fun ob0 =>
  blendCh in1 in2 i ob0 (j * 3 + 1) >>= fun ob1 =>
  blendCh in1 in2 i ob1 (j * 3 + 2)

/-- alphablend_serial (my_alphablend.c lines 101-111). -/
def alphablend_serial (in1 in2 outbuf : Buffer) (width height : Nat) : Option Buffer :=
  ((List.range height).foldlM
    (fun ob i => ((List.range width).foldlM (blendBody in1 in2 i) ob : Option Buffer))
    outbuf : Option Buffer)

/-- Body of the inner loop of transpose_serial (my_grayscale.c companion
file my_transpose.c lines 290-294): copy pixel (i, j) of the input to
pixel (width-1-j, i) of the output. -/
def transBody (inbuf : Buffer) (width i : Nat) (ob : Buffer) (j : Nat) : Option Buffer :=
  getByte inbuf i (j * 3) >>= fun v0 =>
  setByte ob (width - 1 - j) (i * 3) v0 >>= fun ob0 =>
  getByte inbuf i (j * 3 + 1) >>= fun v1 =>
  setByte ob0 (width - 1 - j) (i * 3 + 1) v1 >>= fun ob1 =>
  getByte inbuf i (j * 3 + 2) >>= fun v2 =>
  setByte ob1 (width - 1 - j) (i * 3 + 2) v2

/-- transpose_serial (my_transpose.c lines 286-296). -/
def transpose_serial (inbuf outbuf : Buffer) (width height : Nat) : Option Buffer :=
  ((List.range height).foldlM
    (fun ob i => ((List.range width).foldlM (transBody inbuf width i) ob : Option Buffer))
    outbuf : Option Buffer)

/-- Body of the inner loop of transpose_parallel (my_transpose.c lines
307-316): the six assignments are exactly the serial body for row i
followed by the serial body for row i+1; the row i+1 is read whether or
not it exists. -/
def transBody2 (inbuf : Buffer) (width i : Nat) (ob : Buffer) (j : Nat) : Option Buffer :=
  transBody inbuf width i ob j >>= fun ob2 =>
  transBody inbuf width (i + 1) ob2 j

/-- transpose_parallel (my_transpose.c lines 302-318): the outer loop
advances by 2, so the rows visited are the even numbers below height, each
iteration processing rows i and i+1. -/
def transpose_parallel (inbuf outbuf : Buffer) (width height : Nat) : Option Buffer :=
  (((List.range ((height + 1) / 2)).map (fun t => t * 2)).foldlM
    (fun ob i => ((List.range width).foldlM (transBody2 inbuf width i) ob : Option Buffer))
    outbuf : Option Buffer)

/-- The destination computed by the transpose kernels for a source
coordinate pair (i, j): outbuf[width-1-j][i] (my_transpose.c line 291). -/
def transposeIdx (width : Nat) (p : Nat × Nat) : Nat × Nat :=
  (width - 1 - p.2, p.1)

/-! ### Driver level

The image_t struct of the C programs and the parts of main that define
contracts under verification: the transpose driver allocates the output
with swapped dimensions, and the alpha-blend driver rejects inputs of
different dimensions before running the kernel. -/

/-- The image_t struct: width, height, and the pixel buffer. -/
structure Image where
  width : Nat
  height : Nat
  buf : Buffer
deriving DecidableEq

/-- The invariant established by new_image / read_jpg. -/
def wfImage (img : Image) : Prop := wfBuffer img.buf img.width img.height

instance (img : Image) : Decidable (wfImage img) := by
  unfold wfImage; infer_instance

/-- One run of the transpose program's compute phase (my_transpose.c main,
lines 346-356): allocate the output with new_image(out_img, height, width),
i.e. width_out = height_in and height_out = width_in, then run
transpose_serial. -/
def transposeImage (img : Image) : Option Image :=
  (transpose_serial img.buf (allocBuffer img.height img.width) img.width img.height).map
    (fun out => ⟨img.height, img.width, out⟩)

/-- The fatal validation errors of the pipeline drivers that are relevant
here.  A value of this type models printing the diagnostic and calling
exit(EXIT_FAILURE), i.e. immediate termination with a non-zero status. -/
inductive DriverError where
  | dimensionMismatch
deriving DecidableEq

/-- The compute phase of the alpha-blend program's main (my_alphablend.c
lines 168-189): take the dimensions from the first input, reject the pair
if the second input's dimensions differ (lines 172-176, before the output
is allocated and before any pixel is computed), otherwise allocate the
output with the common dimensions and run the kernel. -/
def alphablendMain (img1 img2 : Image) : Except DriverError (Option Image) :=
  if img1.width ≠ img2.width ∨ img1.height ≠ img2.height then
    Except.error DriverError.dimensionMismatch
  else
    Except.ok ((alphablend_serial img1.buf img2.buf
        (allocBuffer img1.width img1.height) img1.width img1.height).map
      (fun out => ⟨img1.width, img1.height, out⟩))

/-! ### The values the kernels are specified to produce, as total reads -/

/-- The byte that grayscale writes at row t, offset k: the luma of the
pixel the offset k belongs to (channel offsets k with the same k / 3 get
the same value). -/
def grayDst (inbuf : Buffer) (t k : Nat) : Nat :=
  grayVal (byteAt inbuf t (k / 3 * 3)) (byteAt inbuf t (k / 3 * 3 + 1))
    (byteAt inbuf t (k / 3 * 3 + 2))

/-- The byte that alphablend writes at row t, offset k: the 50/50 blend of
the input bytes at the same position. -/
def blendDst (in1 in2 : Buffer) (t k : Nat) : Nat :=
  blendVal (byteAt in1 t k) (byteAt in2 t k)

/-- The byte that transpose writes at row t, offset k of the output, for an
input of width w: channel k mod 3 of input pixel (k / 3, w - 1 - t). -/
def transDst (inbuf : Buffer) (w t k : Nat) : Nat :=
  byteAt inbuf (k / 3) ((w - 1 - t) * 3 + k % 3)

/-! ### Basic lemmas about the buffer primitives -/

theorem lt_length_of_getElem?_eq_some {α : Type} {l : List α} {i : Nat} {a : α}
    (h : l[i]? = some a) : i < l.length := by
  by_contra hc
  rw [List.getElem?_eq_none (by omega)] at h
  exact Option.noConfusion h

theorem exists_row_of_rowLen {b : Buffer} {t L : Nat}
    (h : (b[t]?).map List.length = some L) :
    ∃ row, b[t]? = some row ∧ row.length = L := by
  cases hb : b[t]? with
  | none => rw [hb] at h; exact Option.noConfusion h
  | some r =>
    rw [hb] at h
    exact ⟨r, rfl, by simpa using h⟩

theorem getByte_eq_row {buf : Buffer} {i : Nat} (k : Nat) {row : Row}
    (hrow : buf[i]? = some row) : getByte buf i k = row[k]? := by
  unfold getByte
  rw [hrow]

theorem getByte_eq_some_byteAt {buf : Buffer} {i : Nat} (k : Nat) {row : Row}
    (hrow : buf[i]? = some row) (hk : k < row.length) :
    getByte buf i k = some (byteAt buf i k) := by
  rw [getByte_eq_row k hrow]
  unfold byteAt
  simp only [List.getD_eq_getElem?_getD, hrow, Option.getD_some]
  rw [List.getElem?_eq_getElem hk]
  rfl

/-- A successful setByte: the written cell reads back as the new value,
every other cell is unchanged, and the shape (length of the buffer and of
every row) is preserved. -/
theorem setByte_spec {buf : Buffer} {i k : Nat} (v : Nat) {row : Row}
    (hrow : buf[i]? = some row) (hk : k < row.length) :
    ∃ b' : Buffer, setByte buf i k v = some b' ∧
      b'.length = buf.length ∧
      (∀ t : Nat, (b'[t]?).map List.length = (buf[t]?).map List.length) ∧
      (∀ t k', getByte b' t k' =
        if t = i ∧ k' = k then some v else getByte buf t k') := by
  have hi : i < buf.length := lt_length_of_getElem?_eq_some hrow
  refine ⟨buf.set i (row.set k v), ?_, ?_, ?_, ?_⟩
  · unfold setByte
    rw [hrow]
    simp [hk]
  · exact List.length_set buf i (row.set k v)
  · intro t
    by_cases ht : t = i
    · subst ht
      rw [List.getElem?_set_self (by omega), hrow]
      simp
    · rw [List.getElem?_set_ne (fun he => ht he.symm)]
  · intro t k'
    by_cases ht : t = i
    · subst ht
      rw [getByte_eq_row k' (List.getElem?_set_self (by omega)), getByte_eq_row k' hrow]
      by_cases hk' : k' = k
      · subst hk'
        simp [List.getElem?_set_self hk]
      · simp only [hk', and_false, if_neg, List.getElem?_set_ne (fun he => hk' he.symm)]
        simp
    · have : ¬ (t = i ∧ k' = k) := fun hc => ht hc.1
      rw [if_neg this]
      unfold getByte
      rw [List.getElem?_set_ne (fun he => ht he.symm)]


/-! ### Characterization of the kernel building blocks -/

theorem wf_allocBuffer (w h : Nat) : wfBuffer (allocBuffer w h) w h := by
  constructor
  · simp [allocBuffer]
  · intro t ht
    rw [allocBuffer, List.getElem?_replicate, if_pos ht]
    simp

theorem readPix_spec {inbuf : Buffer} {i : Nat} (j : Nat) {irow : Row}
    (hirow : inbuf[i]? = some irow) (hj : j * 3 + 2 < irow.length) :
    readPix inbuf i j =
      some (byteAt inbuf i (j * 3), byteAt inbuf i (j * 3 + 1), byteAt inbuf i (j * 3 + 2)) := by
  unfold readPix
  rw [getByte_eq_some_byteAt (j * 3) hirow (by omega),
    getByte_eq_some_byteAt (j * 3 + 1) hirow (by omega),
    getByte_eq_some_byteAt (j * 3 + 2) hirow hj]
  rfl

/-- Three consecutive writes of the same value (the chained assignment of
the grayscale kernels), characterized in one step. -/
theorem write3_spec {ob : Buffer} {i k0 : Nat} (y : Nat) {orow : Row}
    (horow : ob[i]? = some orow) (hk : k0 + 2 < orow.length) :
    ∃ ob' : Buffer, write3 ob i k0 y = some ob' ∧
      ob'.length = ob.length ∧
      (∀ t : Nat, (ob'[t]?).map List.length = (ob[t]?).map List.length) ∧
      (∀ t k : Nat, getByte ob' t k =
        if t = i ∧ (k = k0 ∨ k = k0 + 1 ∨ k = k0 + 2) then some y
        else getByte ob t k) := by
  obtain ⟨b1, hs1, hl1, hr1, hp1⟩ := setByte_spec y horow (show k0 < orow.length by omega)
  have hb1 : (b1[i]?).map List.length = some orow.length := by rw [hr1 i, horow]; rfl
  obtain ⟨row1, hrow1, hlen1⟩ := exists_row_of_rowLen hb1
  obtain ⟨b2, hs2, hl2, hr2, hp2⟩ := setByte_spec y hrow1 (show k0 + 1 < row1.length by omega)
  have hb2 : (b2[i]?).map List.length = some orow.length := by
    rw [hr2 i, hrow1]
    simp [hlen1]
  obtain ⟨row2, hrow2, hlen2⟩ := exists_row_of_rowLen hb2
  obtain ⟨b3, hs3, hl3, hr3, hp3⟩ := setByte_spec y hrow2 (show k0 + 2 < row2.length by omega)
  refine ⟨b3, ?_, by rw [hl3, hl2, hl1], fun t => by rw [hr3 t, hr2 t, hr1 t], fun t k => ?_⟩
  · simp only [write3, hs1, hs2, hs3, Option.bind_eq_bind, Option.some_bind]
  · rw [hp3 t k, hp2 t k, hp1 t k]
    split_ifs <;> first | rfl | omega

/-! ### The serial grayscale kernel: loop characterization -/

theorem gray_inner {inbuf : Buffer} {w i : Nat} {irow : Row}
    (hirow : inbuf[i]? = some irow) (hirlen : irow.length = 3 * w)
    {ob : Buffer} {orow : Row} (horow : ob[i]? = some orow) (holen : orow.length = 3 * w)
    (m : Nat) (hm : m ≤ w) :
    ∃ ob' : Buffer, ((List.range m).foldlM (grayBody inbuf i) ob : Option Buffer) = some ob' ∧
      ob'.length = ob.length ∧
      (∀ t : Nat, (ob'[t]?).map List.length = (ob[t]?).map List.length) ∧
      (∀ t k : Nat, getByte ob' t k =
        if t = i ∧ k < 3 * m then some (grayDst inbuf t k) else getByte ob t k) := by
  induction m with
  | zero =>
    refine ⟨ob, by simp, rfl, fun t => rfl, fun t k => ?_⟩
    rw [if_neg (by omega)]
  | succ n ih =>
    obtain ⟨ob', hfold, hlen, hrows, hpt⟩ := ih (by omega)
    have hr' : (ob'[i]?).map List.length = some (3 * w) := by
      rw [hrows i, horow]
      simp [holen]
    obtain ⟨orow', horow', holen'⟩ := exists_row_of_rowLen hr'
    have hread := readPix_spec n hirow (show n * 3 + 2 < irow.length by omega)
    obtain ⟨ob'', hw3, hlen'', hrows'', hpt''⟩ :=
      write3_spec (grayVal (byteAt inbuf i (n * 3)) (byteAt inbuf i (n * 3 + 1))
        (byteAt inbuf i (n * 3 + 2))) horow' (show n * 3 + 2 < orow'.length by omega)
    refine ⟨ob'', ?_, by rw [hlen'', hlen], fun t => by rw [hrows'' t, hrows t], fun t k => ?_⟩
    · rw [List.range_succ, List.foldlM_append, hfold]
      simp only [Option.bind_eq_bind, Option.some_bind, List.foldlM_cons, List.foldlM_nil,
        grayBody, hread, hw3, bind_pure]
    · rw [hpt'' t k, hpt t k]
      by_cases ht : t = i
      · subst ht
        by_cases hnew : k = n * 3 ∨ k = n * 3 + 1 ∨ k = n * 3 + 2
        · rw [if_pos ⟨rfl, hnew⟩, if_pos ⟨rfl, by omega⟩]
          have e : k / 3 * 3 = n * 3 := by omega
          simp only [grayDst, e]
        · rw [if_neg (fun hc => hnew hc.2)]
          by_cases hold : k < 3 * n
          · rw [if_pos ⟨rfl, hold⟩, if_pos ⟨rfl, by omega⟩]
          · rw [if_neg (fun hc => hold hc.2), if_neg (fun hc => hnew (by omega))]
      · rw [if_neg (fun hc => ht hc.1), if_neg (fun hc => ht hc.1),
          if_neg (fun hc => ht hc.1)]

theorem gray_outer {inbuf ob : Buffer} {w h : Nat}
    (hin : wfBuffer inbuf w h) (hob : wfBuffer ob w h)
    (n : Nat) (hn : n ≤ h) :
    ∃ ob' : Buffer,
      ((List.range n).foldlM
        (fun acc i => ((List.range w).foldlM (grayBody inbuf i) acc : Option Buffer)) ob
        : Option Buffer) = some ob' ∧
      ob'.length = ob.length ∧
      (∀ t : Nat, (ob'[t]?).map List.length = (ob[t]?).map List.length) ∧
      (∀ t k : Nat, getByte ob' t k =
        if t < n ∧ k < 3 * w then some (grayDst inbuf t k) else getByte ob t k) := by
  induction n with
  | zero =>
    refine ⟨ob, by simp, rfl, fun t => rfl, fun t k => ?_⟩
    rw [if_neg (by omega)]
  | succ n ih =>
    obtain ⟨ob', hfold, hlen, hrows, hpt⟩ := ih (by omega)
    obtain ⟨irow, hirow, hirlen⟩ := exists_row_of_rowLen (hin.2 n (by omega))
    have hob' : (ob'[n]?).map List.length = some (3 * w) := by
      rw [hrows n]
      exact hob.2 n (by omega)
    obtain ⟨orow, horow, holen⟩ := exists_row_of_rowLen hob'
    obtain ⟨ob'', hfold2, hlen2, hrows2, hpt2⟩ :=
      gray_inner hirow hirlen horow holen w (le_refl w)
    refine ⟨ob'', ?_, by rw [hlen2, hlen], fun t => by rw [hrows2 t, hrows t], fun t k => ?_⟩
    · rw [List.range_succ, List.foldlM_append, hfold]
      simp only [Option.bind_eq_bind, Option.some_bind, List.foldlM_cons, List.foldlM_nil,
        hfold2, bind_pure]
    · rw [hpt2 t k, hpt t k]
      by_cases ht : t = n
      · subst ht
        by_cases hk : k < 3 * w
        · rw [if_pos ⟨rfl, hk⟩, if_pos ⟨by omega, hk⟩]
        · rw [if_neg (fun hc => hk hc.2), if_neg (fun hc => hk hc.2),
            if_neg (fun hc => hk hc.2)]
      · rw [if_neg (fun hc => ht hc.1)]
        by_cases h2 : t < n ∧ k < 3 * w
        · rw [if_pos h2, if_pos ⟨by omega, h2.2⟩]
        · rw [if_neg h2, if_neg (fun hc => h2 ⟨by omega, hc.2⟩)]

/-- Full characterization of grayscale_serial on a well-formed input and a
well-formed pre-allocated output: it succeeds, preserves the shape, and
every byte of the output is the luma of the corresponding input pixel. -/
theorem grayscale_serial_char {inbuf ob : Buffer} {w h : Nat}
    (hin : wfBuffer inbuf w h) (hob : wfBuffer ob w h) :
    ∃ out : Buffer, grayscale_serial inbuf ob w h = some out ∧ wfBuffer out w h ∧
      (∀ t k : Nat, getByte out t k =
        if t < h ∧ k < 3 * w then some (grayDst inbuf t k) else getByte ob t k) := by
  obtain ⟨out, hfold, hlen, hrows, hpt⟩ := gray_outer hin hob h (le_refl h)
  refine ⟨out, hfold, ⟨by rw [hlen, hob.1], fun t ht => ?_⟩, hpt⟩
  rw [hrows t]
  exact hob.2 t ht

/-! ### The serial alpha-blend kernel: loop characterization -/

theorem blendCh_spec {in1 in2 : Buffer} {i : Nat} (k : Nat) {r1 r2 : Row}
    (h1 : in1[i]? = some r1) (hk1 : k < r1.length)
    (h2 : in2[i]? = some r2) (hk2 : k < r2.length)
    {ob : Buffer} {orow : Row} (horow : ob[i]? = some orow) (hk : k < orow.length) :
    ∃ ob' : Buffer, blendCh in1 in2 i ob k = some ob' ∧
      ob'.length = ob.length ∧
      (∀ t : Nat, (ob'[t]?).map List.length = (ob[t]?).map List.length) ∧
      (∀ t k' : Nat, getByte ob' t k' =
        if t = i ∧ k' = k then some (blendDst in1 in2 i k) else getByte ob t k') := by
  obtain ⟨b1, hs1, hl1, hr1, hp1⟩ :=
    setByte_spec (blendVal (byteAt in1 i k) (byteAt in2 i k)) horow hk
  refine ⟨b1, ?_, hl1, hr1, hp1⟩
  simp only [blendCh, getByte_eq_some_byteAt k h1 hk1, getByte_eq_some_byteAt k h2 hk2,
    Option.bind_eq_bind, Option.some_bind, hs1]

theorem blendBody_spec {in1 in2 : Buffer} {w i : Nat} {r1 r2 : Row}
    (h1 : in1[i]? = some r1) (hl1 : r1.length = 3 * w)
    (h2 : in2[i]? = some r2) (hl2 : r2.length = 3 * w)
    {ob : Buffer} {orow : Row} (horow : ob[i]? = some orow) (holen : orow.length = 3 * w)
    (j : Nat) (hj : j < w) :
    ∃ ob' : Buffer, blendBody in1 in2 i ob j = some ob' ∧
      ob'.length = ob.length ∧
      (∀ t : Nat, (ob'[t]?).map List.length = (ob[t]?).map List.length) ∧
      (∀ t k : Nat, getByte ob' t k =
        if t = i ∧ (k = j * 3 ∨ k = j * 3 + 1 ∨ k = j * 3 + 2)
        then some (blendDst in1 in2 i k)
        else getByte ob t k) := by
  obtain ⟨b1, hs1, hlen1, hrows1, hp1⟩ :=
    blendCh_spec (j * 3) h1 (by omega) h2 (by omega) horow (by omega)
  have hb1 : (b1[i]?).map List.length = some (3 * w) := by
    rw [hrows1 i, horow]
    simp [holen]
  obtain ⟨row1, hrow1, hrl1⟩ := exists_row_of_rowLen hb1
  obtain ⟨b2, hs2, hlen2, hrows2, hp2⟩ :=
    blendCh_spec (j * 3 + 1) h1 (by omega) h2 (by omega) hrow1 (by omega)
  have hb2 : (b2[i]?).map List.length = some (3 * w) := by
    rw [hrows2 i, hrow1]
    simp [hrl1]
  obtain ⟨row2, hrow2, hrl2⟩ := exists_row_of_rowLen hb2
  obtain ⟨b3, hs3, hlen3, hrows3, hp3⟩ :=
    blendCh_spec (j * 3 + 2) h1 (by omega) h2 (by omega) hrow2 (by omega)
  refine ⟨b3, ?_, by rw [hlen3, hlen2, hlen1],
    fun t => by rw [hrows3 t, hrows2 t, hrows1 t], fun t k => ?_⟩
  · simp only [blendBody, hs1, hs2, hs3, Option.bind_eq_bind, Option.some_bind]
  · rw [hp3 t k, hp2 t k, hp1 t k]
    by_cases ht : t = i
    · subst ht
      by_cases c2 : k = j * 3 + 2
      · subst c2
        rw [if_pos ⟨rfl, rfl⟩, if_pos ⟨rfl, by omega⟩]
      · rw [if_neg (fun hc => c2 hc.2)]
        by_cases c1 : k = j * 3 + 1
        · subst c1
          rw [if_pos ⟨rfl, rfl⟩, if_pos ⟨rfl, by omega⟩]
        · rw [if_neg (fun hc => c1 hc.2)]
          by_cases c0 : k = j * 3
          · subst c0
            rw [if_pos ⟨rfl, rfl⟩, if_pos ⟨rfl, by omega⟩]
          · rw [if_neg (fun hc => c0 hc.2), if_neg (by omega)]
    · rw [if_neg (fun hc => ht hc.1), if_neg (fun hc => ht hc.1),
        if_neg (fun hc => ht hc.1), if_neg (fun hc => ht hc.1)]

theorem blend_inner {in1 in2 : Buffer} {w i : Nat} {r1 r2 : Row}
    (h1 : in1[i]? = some r1) (hl1 : r1.length = 3 * w)
    (h2 : in2[i]? = some r2) (hl2 : r2.length = 3 * w)
    {ob : Buffer} {orow : Row} (horow : ob[i]? = some orow) (holen : orow.length = 3 * w)
    (m : Nat) (hm : m ≤ w) :
    ∃ ob' : Buffer,
      ((List.range m).foldlM (blendBody in1 in2 i) ob : Option Buffer) = some ob' ∧
      ob'.length = ob.length ∧
      (∀ t : Nat, (ob'[t]?).map List.length = (ob[t]?).map List.length) ∧
      (∀ t k : Nat, getByte ob' t k =
        if t = i ∧ k < 3 * m then some (blendDst in1 in2 i k) else getByte ob t k) := by
  induction m with
  | zero =>
    refine ⟨ob, by simp, rfl, fun t => rfl, fun t k => ?_⟩
    rw [if_neg (by omega)]
  | succ n ih =>
    obtain ⟨ob', hfold, hlen, hrows, hpt⟩ := ih (by omega)
    have hr' : (ob'[i]?).map List.length = some (3 * w) := by
      rw [hrows i, horow]
      simp [holen]
    obtain ⟨orow', horow', holen'⟩ := exists_row_of_rowLen hr'
    obtain ⟨ob'', hbody, hlen'', hrows'', hpt''⟩ :=
      blendBody_spec h1 hl1 h2 hl2 horow' holen' n (by omega)
    refine ⟨ob'', ?_, by rw [hlen'', hlen], fun t => by rw [hrows'' t, hrows t], fun t k => ?_⟩
    · rw [List.range_succ, List.foldlM_append, hfold]
      simp only [Option.bind_eq_bind, Option.some_bind, List.foldlM_cons, List.foldlM_nil,
        hbody, bind_pure]
    · rw [hpt'' t k, hpt t k]
      by_cases ht : t = i
      · subst ht
        by_cases hnew : k = n * 3 ∨ k = n * 3 + 1 ∨ k = n * 3 + 2
        · rw [if_pos ⟨rfl, hnew⟩, if_pos ⟨rfl, by omega⟩]
        · rw [if_neg (fun hc => hnew hc.2)]
          by_cases hold : k < 3 * n
          · rw [if_pos ⟨rfl, hold⟩, if_pos ⟨rfl, by omega⟩]
          · rw [if_neg (fun hc => hold hc.2), if_neg (by omega)]
      · rw [if_neg (fun hc => ht hc.1), if_neg (fun hc => ht hc.1),
          if_neg (fun hc => ht hc.1)]

theorem blend_outer {in1 in2 ob : Buffer} {w h : Nat}
    (h1 : wfBuffer in1 w h) (h2 : wfBuffer in2 w h) (hob : wfBuffer ob w h)
    (n : Nat) (hn : n ≤ h) :
    ∃ ob' : Buffer,
      ((List.range n).foldlM
        (fun acc i => ((List.range w).foldlM (blendBody in1 in2 i) acc : Option Buffer)) ob
        : Option Buffer) = some ob' ∧
      ob'.length = ob.length ∧
      (∀ t : Nat, (ob'[t]?).map List.length = (ob[t]?).map List.length) ∧
      (∀ t k : Nat, getByte ob' t k =
        if t < n ∧ k < 3 * w then some (blendDst in1 in2 t k) else getByte ob t k) := by
  induction n with
  | zero =>
    refine ⟨ob, by simp, rfl, fun t => rfl, fun t k => ?_⟩
    rw [if_neg (by omega)]
  | succ n ih =>
    obtain ⟨ob', hfold, hlen, hrows, hpt⟩ := ih (by omega)
    obtain ⟨r1, hr1, hrl1⟩ := exists_row_of_rowLen (h1.2 n (by omega))
    obtain ⟨r2, hr2, hrl2⟩ := exists_row_of_rowLen (h2.2 n (by omega))
    have hob' : (ob'[n]?).map List.length = some (3 * w) := by
      rw [hrows n]
      exact hob.2 n (by omega)
    obtain ⟨orow, horow, holen⟩ := exists_row_of_rowLen hob'
    obtain ⟨ob'', hfold2, hlen2, hrows2, hpt2⟩ :=
      blend_inner hr1 hrl1 hr2 hrl2 horow holen w (le_refl w)
    refine ⟨ob'', ?_, by rw [hlen2, hlen], fun t => by rw [hrows2 t, hrows t], fun t k => ?_⟩
    · rw [List.range_succ, List.foldlM_append, hfold]
      simp only [Option.bind_eq_bind, Option.some_bind, List.foldlM_cons, List.foldlM_nil,
        hfold2, bind_pure]
    · rw [hpt2 t k, hpt t k]
      by_cases ht : t = n
      · subst ht
        by_cases hk : k < 3 * w
        · rw [if_pos ⟨rfl, hk⟩, if_pos ⟨by omega, hk⟩]
        · rw [if_neg (fun hc => hk hc.2), if_neg (fun hc => hk hc.2),
            if_neg (fun hc => hk hc.2)]
      · rw [if_neg (fun hc => ht hc.1)]
        by_cases h3 : t < n ∧ k < 3 * w
        · rw [if_pos h3, if_pos ⟨by omega, h3.2⟩]
        · rw [if_neg h3, if_neg (fun hc => h3 ⟨by omega, hc.2⟩)]

/-- Full characterization of alphablend_serial on two well-formed inputs
of the same dimensions and a well-formed pre-allocated output. -/
theorem alphablend_serial_char {in1 in2 ob : Buffer} {w h : Nat}
    (h1 : wfBuffer in1 w h) (h2 : wfBuffer in2 w h) (hob : wfBuffer ob w h) :
    ∃ out : Buffer, alphablend_serial in1 in2 ob w h = some out ∧ wfBuffer out w h ∧
      (∀ t k : Nat, getByte out t k =
        if t < h ∧ k < 3 * w then some (blendDst in1 in2 t k) else getByte ob t k) := by
  obtain ⟨out, hfold, hlen, hrows, hpt⟩ := blend_outer h1 h2 hob h (le_refl h)
  refine ⟨out, hfold, ⟨by rw [hlen, hob.1], fun t ht => ?_⟩, hpt⟩
  rw [hrows t]
  exact hob.2 t ht

/-! ### The serial transpose kernel: loop characterization -/

theorem transBody_spec {inbuf : Buffer} {w h i : Nat} {irow : Row}
    (hirow : inbuf[i]? = some irow) (hirlen : irow.length = 3 * w) (hi : i < h)
    (j : Nat) (hj : j < w)
    {ob : Buffer} {orow : Row} (horow : ob[w - 1 - j]? = some orow)
    (holen : orow.length = 3 * h) :
    ∃ ob' : Buffer, transBody inbuf w i ob j = some ob' ∧
      ob'.length = ob.length ∧
      (∀ t : Nat, (ob'[t]?).map List.length = (ob[t]?).map List.length) ∧
      (∀ t k : Nat, getByte ob' t k =
        if t = w - 1 - j ∧ (k = i * 3 ∨ k = i * 3 + 1 ∨ k = i * 3 + 2)
        then some (byteAt inbuf i (j * 3 + (k - i * 3)))
        else getByte ob t k) := by
  obtain ⟨b1, hs1, hlen1, hrows1, hp1⟩ :=
    setByte_spec (byteAt inbuf i (j * 3)) horow (show i * 3 < orow.length by omega)
  have hb1 : (b1[w - 1 - j]?).map List.length = some (3 * h) := by
    rw [hrows1 _, horow]
    simp [holen]
  obtain ⟨row1, hrow1, hrl1⟩ := exists_row_of_rowLen hb1
  obtain ⟨b2, hs2, hlen2, hrows2, hp2⟩ :=
    setByte_spec (byteAt inbuf i (j * 3 + 1)) hrow1 (show i * 3 + 1 < row1.length by omega)
  have hb2 : (b2[w - 1 - j]?).map List.length = some (3 * h) := by
    rw [hrows2 _, hrow1]
    simp [hrl1]
  obtain ⟨row2, hrow2, hrl2⟩ := exists_row_of_rowLen hb2
  obtain ⟨b3, hs3, hlen3, hrows3, hp3⟩ :=
    setByte_spec (byteAt inbuf i (j * 3 + 2)) hrow2 (show i * 3 + 2 < row2.length by omega)
  refine ⟨b3, ?_, by rw [hlen3, hlen2, hlen1],
    fun t => by rw [hrows3 t, hrows2 t, hrows1 t], fun t k => ?_⟩
  · simp only [transBody, getByte_eq_some_byteAt (j * 3) hirow (by omega),
      getByte_eq_some_byteAt (j * 3 + 1) hirow (by omega),
      getByte_eq_some_byteAt (j * 3 + 2) hirow (by omega),
      Option.bind_eq_bind, Option.some_bind, hs1, hs2, hs3]
  · rw [hp3 t k, hp2 t k, hp1 t k]
    by_cases ht : t = w - 1 - j
    · subst ht
      by_cases c2 : k = i * 3 + 2
      · subst c2
        rw [if_pos ⟨rfl, rfl⟩, if_pos ⟨rfl, by omega⟩]
        have e : i * 3 + 2 - i * 3 = 2 := by omega
        rw [e]
      · rw [if_neg (fun hc => c2 hc.2)]
        by_cases c1 : k = i * 3 + 1
        · subst c1
          rw [if_pos ⟨rfl, rfl⟩, if_pos ⟨rfl, by omega⟩]
          have e : i * 3 + 1 - i * 3 = 1 := by omega
          rw [e]
        · rw [if_neg (fun hc => c1 hc.2)]
          by_cases c0 : k = i * 3
          · subst c0
            rw [if_pos ⟨rfl, rfl⟩, if_pos ⟨rfl, by omega⟩]
            have e : j * 3 + (i * 3 - i * 3) = j * 3 := by omega
            rw [e]
          · rw [if_neg (fun hc => c0 hc.2), if_neg (by omega)]
    · rw [if_neg (fun hc => ht hc.1), if_neg (fun hc => ht hc.1),
        if_neg (fun hc => ht hc.1), if_neg (fun hc => ht hc.1)]

theorem trans_inner {inbuf : Buffer} {w h i : Nat} {irow : Row}
    (hirow : inbuf[i]? = some irow) (hirlen : irow.length = 3 * w) (hi : i < h)
    {ob : Buffer} (hob : wfBuffer ob h w)
    (m : Nat) (hm : m ≤ w) :
    ∃ ob' : Buffer,
      ((List.range m).foldlM (transBody inbuf w i) ob : Option Buffer) = some ob' ∧
      ob'.length = ob.length ∧
      (∀ t : Nat, (ob'[t]?).map List.length = (ob[t]?).map List.length) ∧
      (∀ t k : Nat, getByte ob' t k =
        if w - m ≤ t ∧ t < w ∧ (k = i * 3 ∨ k = i * 3 + 1 ∨ k = i * 3 + 2)
        then some (transDst inbuf w t k)
        else getByte ob t k) := by
  induction m with
  | zero =>
    refine ⟨ob, by simp, rfl, fun t => rfl, fun t k => ?_⟩
    rw [if_neg (by omega)]
  | succ n ih =>
    obtain ⟨ob', hfold, hlen, hrows, hpt⟩ := ih (by omega)
    have hob' : (ob'[w - 1 - n]?).map List.length = some (3 * h) := by
      rw [hrows _]
      exact hob.2 (w - 1 - n) (by omega)
    obtain ⟨orow, horow, holen⟩ := exists_row_of_rowLen hob'
    obtain ⟨ob'', hbody, hlen'', hrows'', hpt''⟩ :=
      transBody_spec hirow hirlen hi n (by omega) horow holen
    refine ⟨ob'', ?_, by rw [hlen'', hlen], fun t => by rw [hrows'' t, hrows t], fun t k => ?_⟩
    · rw [List.range_succ, List.foldlM_append, hfold]
      simp only [Option.bind_eq_bind, Option.some_bind, List.foldlM_cons, List.foldlM_nil,
        hbody, bind_pure]
    · rw [hpt'' t k, hpt t k]
      by_cases ht : t = w - 1 - n
      · subst ht
        by_cases hk3 : k = i * 3 ∨ k = i * 3 + 1 ∨ k = i * 3 + 2
        · rw [if_pos ⟨rfl, hk3⟩, if_pos ⟨by omega, by omega, hk3⟩]
          have e1 : k / 3 = i := by omega
          have e2 : (w - 1 - (w - 1 - n)) * 3 + k % 3 = n * 3 + (k - i * 3) := by omega
          simp only [transDst, e1, e2]
        · rw [if_neg (fun hc => hk3 hc.2), if_neg (fun hc => hk3 hc.2.2),
            if_neg (fun hc => hk3 hc.2.2)]
      · rw [if_neg (fun hc => ht hc.1)]
        by_cases hOld : w - n ≤ t ∧ t < w ∧ (k = i * 3 ∨ k = i * 3 + 1 ∨ k = i * 3 + 2)
        · rw [if_pos hOld, if_pos ⟨by omega, hOld.2.1, hOld.2.2⟩]
        · rw [if_neg hOld, if_neg (fun hc => hOld ⟨by omega, hc.2.1, hc.2.2⟩)]

theorem trans_outer {inbuf ob : Buffer} {w h : Nat}
    (hin : wfBuffer inbuf w h) (hob : wfBuffer ob h w)
    (n : Nat) (hn : n ≤ h) :
    ∃ ob' : Buffer,
      ((List.range n).foldlM
        (fun acc i => ((List.range w).foldlM (transBody inbuf w i) acc : Option Buffer)) ob
        : Option Buffer) = some ob' ∧
      ob'.length = ob.length ∧
      (∀ t : Nat, (ob'[t]?).map List.length = (ob[t]?).map List.length) ∧
      (∀ t k : Nat, getByte ob' t k =
        if t < w ∧ k < 3 * n then some (transDst inbuf w t k) else getByte ob t k) := by
  induction n with
  | zero =>
    refine ⟨ob, by simp, rfl, fun t => rfl, fun t k => ?_⟩
    rw [if_neg (by omega)]
  | succ n ih =>
    obtain ⟨ob', hfold, hlen, hrows, hpt⟩ := ih (by omega)
    obtain ⟨irow, hirow, hirlen⟩ := exists_row_of_rowLen (hin.2 n (by omega))
    have hob' : wfBuffer ob' h w := by
      refine ⟨by rw [hlen]; exact hob.1, fun t ht => ?_⟩
      rw [hrows t]
      exact hob.2 t ht
    obtain ⟨ob'', hfold2, hlen2, hrows2, hpt2⟩ :=
      trans_inner hirow hirlen (show n < h by omega) hob' w (le_refl w)
    refine ⟨ob'', ?_, by rw [hlen2, hlen], fun t => by rw [hrows2 t, hrows t], fun t k => ?_⟩
    · rw [List.range_succ, List.foldlM_append, hfold]
      simp only [Option.bind_eq_bind, Option.some_bind, List.foldlM_cons, List.foldlM_nil,
        hfold2, bind_pure]
    · rw [hpt2 t k, hpt t k]
      by_cases htw : t < w
      · by_cases hnew : k = n * 3 ∨ k = n * 3 + 1 ∨ k = n * 3 + 2
        · rw [if_pos ⟨by omega, htw, hnew⟩, if_pos ⟨htw, by omega⟩]
        · rw [if_neg (fun hc => hnew hc.2.2)]
          by_cases hold : k < 3 * n
          · rw [if_pos ⟨htw, hold⟩, if_pos ⟨htw, by omega⟩]
          · rw [if_neg (fun hc => hold hc.2), if_neg (by omega)]
      · rw [if_neg (fun hc => htw hc.2.1), if_neg (fun hc => htw hc.1),
          if_neg (fun hc => htw hc.1)]

/-- Full characterization of transpose_serial: on a w-by-h input and a
pre-allocated h-by-w output it succeeds, and the output byte at row t,
offset k is channel k mod 3 of input pixel (k / 3, w - 1 - t). -/
theorem transpose_serial_char {inbuf ob : Buffer} {w h : Nat}
    (hin : wfBuffer inbuf w h) (hob : wfBuffer ob h w) :
    ∃ out : Buffer, transpose_serial inbuf ob w h = some out ∧ wfBuffer out h w ∧
      (∀ t k : Nat, getByte out t k =
        if t < w ∧ k < 3 * h then some (transDst inbuf w t k) else getByte ob t k) := by
  obtain ⟨out, hfold, hlen, hrows, hpt⟩ := trans_outer hin hob h (le_refl h)
  refine ⟨out, hfold, ⟨by rw [hlen, hob.1], fun t ht => ?_⟩, hpt⟩
  rw [hrows t]
  exact hob.2 t ht

/-! ### Arithmetic facts about the double-precision model -/

set_option maxRecDepth 4000 in
/-- Multiplying a byte value by the double 0.5 is exact (0.5 is a power of
two and bytes have at most 8 significant bits). -/
theorem mulD_half : ∀ a < 256, mulD halfD a = a * 2 ^ 59 := by decide

set_option maxRecDepth 8000 in
/-- Adding two exact halves of bytes is exact, and truncating the result
is division by two. -/
theorem round53_half_mul : ∀ s < 511, round53 (s * 2 ^ 59) / 2 ^ 60 = s / 2 := by decide

/-- On byte values the double-precision 50/50 blend of the C code computes
exactly floor((a + b) / 2): every step is exact in binary64. -/
theorem blendVal_eq_avg (a b : Nat) (ha : a < 256) (hb : b < 256) :
    blendVal a b = (a + b) / 2 := by
  unfold blendVal addD
  rw [mulD_half a ha, mulD_half b hb]
  have h : a * 2 ^ 59 + b * 2 ^ 59 = (a + b) * 2 ^ 59 := by ring
  rw [h]
  exact round53_half_mul (a + b) (by omega)

/-! ### More buffer lemmas -/

theorem byteAt_lt_of_byteBounded {buf : Buffer} {w h : Nat}
    (hwf : wfBuffer buf w h) (hb : byteBounded buf) {t k : Nat}
    (ht : t < h) (hk : k < 3 * w) : byteAt buf t k < 256 := by
  obtain ⟨row, hrow, hlen⟩ := exists_row_of_rowLen (hwf.2 t ht)
  have hmem : row ∈ buf := List.getElem?_mem hrow
  have h1 : byteAt buf t k = row.getD k 0 := by
    unfold byteAt
    simp only [List.getD_eq_getElem?_getD, hrow, Option.getD_some]
  have hk' : k < row.length := by omega
  rw [h1, List.getD_eq_getElem?_getD, List.getElem?_eq_getElem hk']
  exact hb row hmem _ (List.getElem_mem hk')

/-- Two well-formed buffers of the same dimensions that agree on every
in-range byte are equal. -/
theorem buffer_ext {b1 b2 : Buffer} {w h : Nat}
    (h1 : wfBuffer b1 w h) (h2 : wfBuffer b2 w h)
    (hpt : ∀ t < h, ∀ k < 3 * w, getByte b1 t k = getByte b2 t k) : b1 = b2 := by
  apply List.ext_getElem?
  intro n
  by_cases hn : n < h
  · obtain ⟨r1, hr1, hl1⟩ := exists_row_of_rowLen (h1.2 n hn)
    obtain ⟨r2, hr2, hl2⟩ := exists_row_of_rowLen (h2.2 n hn)
    rw [hr1, hr2]
    congr 1
    apply List.ext_getElem?
    intro k
    by_cases hk : k < 3 * w
    · have hpk := hpt n hn k hk
      rw [getByte_eq_row k hr1, getByte_eq_row k hr2] at hpk
      exact hpk
    · rw [List.getElem?_eq_none (by omega), List.getElem?_eq_none (by omega)]
  · have e1 := h1.1
    have e2 := h2.1
    rw [List.getElem?_eq_none (by omega), List.getElem?_eq_none (by omega)]

/-! ### The transpose kernel at the driver level -/

/-- One application of the transpose program: it succeeds on a well-formed
image, swaps the dimensions, and the output byte at row t, offset k is
channel k mod 3 of input pixel (k / 3, width - 1 - t). -/
theorem transposeImage_char {img : Image} (hwf : wfImage img) :
    ∃ img' : Image, transposeImage img = some img' ∧
      img'.width = img.height ∧ img'.height = img.width ∧ wfImage img' ∧
      (∀ t k : Nat, t < img.width → k < 3 * img.height →
        getByte img'.buf t k =
          getByte img.buf (k / 3) ((img.width - 1 - t) * 3 + k % 3)) := by
  obtain ⟨out, hrun, hwfout, hpt⟩ :=
    transpose_serial_char hwf (wf_allocBuffer img.height img.width)
  refine ⟨⟨img.height, img.width, out⟩, ?_, rfl, rfl, hwfout, fun t k htw hk => ?_⟩
  · unfold transposeImage
    rw [hrun]
    rfl
  · rw [hpt t k, if_pos ⟨htw, hk⟩]
    obtain ⟨row, hrow, hlen⟩ := exists_row_of_rowLen (hwf.2 (k / 3) (by omega))
    rw [getByte_eq_some_byteAt _ hrow (by omega)]
    rfl

/-- Two applications of the transpose program: the dimensions return to the
original and every pixel is rotated by 180 degrees. -/
theorem transposeImage_twice_char {img : Image} (hwf : wfImage img) :
    ∃ img2 : Image, (transposeImage img).bind transposeImage = some img2 ∧
      img2.width = img.width ∧ img2.height = img.height ∧ wfImage img2 ∧
      (∀ t k : Nat, t < img.height → k < 3 * img.width →
        getByte img2.buf t k =
          getByte img.buf (img.height - 1 - t) ((img.width - 1 - k / 3) * 3 + k % 3)) := by
  obtain ⟨img1, h1, hw1, hh1, hwf1, hpt1⟩ := transposeImage_char hwf
  obtain ⟨img2, h2, hw2, hh2, hwf2, hpt2⟩ := transposeImage_char hwf1
  rw [hw1] at hpt2 hh2
  rw [hh1] at hpt2 hw2
  refine ⟨img2, ?_, hw2, hh2, hwf2, fun t k ht hk => ?_⟩
  · rw [h1, Option.some_bind, h2]
  · rw [hpt2 t k ht hk, hpt1 (k / 3) ((img.height - 1 - t) * 3 + k % 3) (by omega) (by omega)]
    have e1 : ((img.height - 1 - t) * 3 + k % 3) / 3 = img.height - 1 - t := by omega
    have e2 : ((img.height - 1 - t) * 3 + k % 3) % 3 = k % 3 := by omega
    rw [e1, e2]

/-! ### The claims -/

/-- Claim C1, counterexample: the claim demands that every output pixel be
the exact floor of 0.299*R + 0.587*G + 0.114*B of the input pixel.  On the
1-by-1 buffer whose pixel is (1, 1, 1) (channels in 0..255) the kernel
produces the pixel (0, 0, 0), because the double constants 0.299, 0.587
and 0.114 round to values whose sum is just below 1; the exact floor of
0.299 + 0.587 + 0.114 is 1, not 0. -/
theorem gray_exact_floor_counterexample :
    grayscale_serial [[1, 1, 1]] (allocBuffer 1 1) 1 1 = some [[0, 0, 0]] ∧
    (299 * 1 + 587 * 1 + 114 * 1) / 1000 = 1 ∧ (0 : Nat) ≠ 1 := by decide

/-- Claim C1 (amended): for every input buffer of width W and height H with
byte channels in 0..255, the Grayscale kernel returns a buffer of the same
W-by-H dimensions in which the pixel at every (row, col) equals (y, y, y)
where y is 0.299*R + 0.587*G + 0.114*B of the input pixel evaluated in
IEEE-754 double precision and truncated to an integer (grayVal); this can
be one below the exact floor of the decimal expression.  The 4-by-2 all-red
example still yields (76, 76, 76) everywhere (see the witness). -/
theorem grayscale_serial_double_spec (inbuf : Buffer) (w h : Nat)
    (hwf : wfBuffer inbuf w h) (hb : byteBounded inbuf) :
    ∃ out : Buffer, grayscale_serial inbuf (allocBuffer w h) w h = some out ∧
      wfBuffer out w h ∧
      ∀ i < h, ∀ j < w, ∃ r g b : Nat,
        getByte inbuf i (j * 3) = some r ∧
        getByte inbuf i (j * 3 + 1) = some g ∧
        getByte inbuf i (j * 3 + 2) = some b ∧
        ∀ c < 3, getByte out i (j * 3 + c) = some (grayVal r g b) := by
  obtain ⟨out, hrun, hwfout, hpt⟩ := grayscale_serial_char hwf (wf_allocBuffer w h)
  refine ⟨out, hrun, hwfout, fun i hi j hj => ?_⟩
  obtain ⟨row, hrow, hlen⟩ := exists_row_of_rowLen (hwf.2 i hi)
  refine ⟨byteAt inbuf i (j * 3), byteAt inbuf i (j * 3 + 1), byteAt inbuf i (j * 3 + 2),
    getByte_eq_some_byteAt _ hrow (by omega), getByte_eq_some_byteAt _ hrow (by omega),
    getByte_eq_some_byteAt _ hrow (by omega), fun c hc => ?_⟩
  rw [hpt i (j * 3 + c), if_pos ⟨hi, by omega⟩]
  have e : (j * 3 + c) / 3 * 3 = j * 3 := by omega
  simp only [grayDst, e]

/-- Witness for the amended claim C1 at the 4-by-2 all-red buffer; the
last conjunct checks the spec example: every output pixel is (76, 76, 76). -/
theorem grayscale_serial_double_spec_witness :
    (wfBuffer (List.replicate 2 [255, 0, 0, 255, 0, 0, 255, 0, 0, 255, 0, 0]) 4 2 ∧
      byteBounded (List.replicate 2 [255, 0, 0, 255, 0, 0, 255, 0, 0, 255, 0, 0])) ∧
    (∃ out : Buffer,
      grayscale_serial (List.replicate 2 [255, 0, 0, 255, 0, 0, 255, 0, 0, 255, 0, 0])
        (allocBuffer 4 2) 4 2 = some out ∧
      wfBuffer out 4 2 ∧
      ∀ i < 2, ∀ j < 4, ∃ r g b : Nat,
        getByte (List.replicate 2 [255, 0, 0, 255, 0, 0, 255, 0, 0, 255, 0, 0]) i (j * 3)
          = some r ∧
        getByte (List.replicate 2 [255, 0, 0, 255, 0, 0, 255, 0, 0, 255, 0, 0]) i (j * 3 + 1)
          = some g ∧
        getByte (List.replicate 2 [255, 0, 0, 255, 0, 0, 255, 0, 0, 255, 0, 0]) i (j * 3 + 2)
          = some b ∧
        ∀ c < 3, getByte out i (j * 3 + c) = some (grayVal r g b)) ∧
    grayscale_serial (List.replicate 2 [255, 0, 0, 255, 0, 0, 255, 0, 0, 255, 0, 0])
      (allocBuffer 4 2) 4 2 = some (List.replicate 2 (List.replicate 12 76)) :=
  ⟨⟨by decide, by decide⟩,
    grayscale_serial_double_spec
      (List.replicate 2 [255, 0, 0, 255, 0, 0, 255, 0, 0, 255, 0, 0]) 4 2
      (by decide) (by decide),
    by decide⟩

/-- Claim C2: for every input buffer of width W and height H, the Transpose
kernel (run the way main runs it, with the output allocated by
new_image(out, height, width)) succeeds and returns a buffer whose width
equals H and whose height equals W, with output[W-1-j][i] = input[i][j]
for all 0 <= i < H and 0 <= j < W.  This includes 1-by-1 and 1-by-N
inputs, since W and H are arbitrary here. -/
theorem transpose_dims_and_mapping (inbuf : Buffer) (w h : Nat)
    (hwf : wfBuffer inbuf w h) :
    ∃ out : Buffer, transpose_serial inbuf (allocBuffer h w) w h = some out ∧
      wfBuffer out h w ∧
      ∀ i < h, ∀ j < w, ∀ c < 3,
        getByte out (w - 1 - j) (i * 3 + c) = getByte inbuf i (j * 3 + c) := by
  obtain ⟨out, hrun, hwfout, hpt⟩ := transpose_serial_char hwf (wf_allocBuffer h w)
  refine ⟨out, hrun, hwfout, fun i hi j hj c hc => ?_⟩
  rw [hpt (w - 1 - j) (i * 3 + c), if_pos ⟨by omega, by omega⟩]
  obtain ⟨row, hrow, hlen⟩ := exists_row_of_rowLen (hwf.2 i hi)
  rw [getByte_eq_some_byteAt (j * 3 + c) hrow (by omega)]
  have e1 : (i * 3 + c) / 3 = i := by omega
  have e2 : (w - 1 - (w - 1 - j)) * 3 + (i * 3 + c) % 3 = j * 3 + c := by omega
  simp only [transDst, e1, e2]

/-- Witness for claim C2 at a concrete 2-by-1 image (also checking the
concrete transposed buffer: a 1-by-2 image with the columns reversed). -/
theorem transpose_dims_and_mapping_witness :
    wfBuffer [[1, 2, 3, 4, 5, 6]] 2 1 ∧
    (∃ out : Buffer, transpose_serial [[1, 2, 3, 4, 5, 6]] (allocBuffer 1 2) 2 1 = some out ∧
      wfBuffer out 1 2 ∧
      ∀ i < 1, ∀ j < 2, ∀ c < 3,
        getByte out (2 - 1 - j) (i * 3 + c) = getByte [[1, 2, 3, 4, 5, 6]] i (j * 3 + c)) ∧
    transpose_serial [[1, 2, 3, 4, 5, 6]] (allocBuffer 1 2) 2 1 = some [[4, 5, 6], [1, 2, 3]] :=
  ⟨by decide, transpose_dims_and_mapping [[1, 2, 3, 4, 5, 6]] 2 1 (by decide), by decide⟩

/-- Claim C3: for every pair of byte input buffers with identical width and
height, the AlphaBlend kernel succeeds and returns a buffer of the same
dimensions in which every channel equals floor(0.5*in1 + 0.5*in2) =
floor((in1 + in2) / 2) of the corresponding input channels (the double
computation is exact here, so the decimal floor formula holds). -/
theorem alphablend_spec (in1 in2 : Buffer) (w h : Nat)
    (h1 : wfBuffer in1 w h) (h2 : wfBuffer in2 w h)
    (hb1 : byteBounded in1) (hb2 : byteBounded in2) :
    ∃ out : Buffer, alphablend_serial in1 in2 (allocBuffer w h) w h = some out ∧
      wfBuffer out w h ∧
      ∀ i < h, ∀ k < 3 * w, ∃ a b : Nat,
        getByte in1 i k = some a ∧ getByte in2 i k = some b ∧
        getByte out i k = some ((a + b) / 2) := by
  obtain ⟨out, hrun, hwfout, hpt⟩ := alphablend_serial_char h1 h2 (wf_allocBuffer w h)
  refine ⟨out, hrun, hwfout, fun i hi k hk => ?_⟩
  obtain ⟨r1, hr1, hl1⟩ := exists_row_of_rowLen (h1.2 i hi)
  obtain ⟨r2, hr2, hl2⟩ := exists_row_of_rowLen (h2.2 i hi)
  refine ⟨byteAt in1 i k, byteAt in2 i k, getByte_eq_some_byteAt k hr1 (by omega),
    getByte_eq_some_byteAt k hr2 (by omega), ?_⟩
  rw [hpt i k, if_pos ⟨hi, hk⟩]
  have ha := byteAt_lt_of_byteBounded h1 hb1 hi hk
  have hbb := byteAt_lt_of_byteBounded h2 hb2 hi hk
  simp only [blendDst, blendVal_eq_avg _ _ ha hbb]

/-- Witness for claim C3: blending the all-red 4-by-2 buffer with the
all-blue 4-by-2 buffer yields (127, 0, 127) everywhere, the spec example. -/
theorem alphablend_spec_witness :
    (wfBuffer (List.replicate 2 [255, 0, 0, 255, 0, 0, 255, 0, 0, 255, 0, 0]) 4 2 ∧
      wfBuffer (List.replicate 2 [0, 0, 255, 0, 0, 255, 0, 0, 255, 0, 0, 255]) 4 2) ∧
    (∃ out : Buffer,
      alphablend_serial (List.replicate 2 [255, 0, 0, 255, 0, 0, 255, 0, 0, 255, 0, 0])
        (List.replicate 2 [0, 0, 255, 0, 0, 255, 0, 0, 255, 0, 0, 255])
        (allocBuffer 4 2) 4 2 = some out ∧
      wfBuffer out 4 2 ∧
      ∀ i < 2, ∀ k < 3 * 4, ∃ a b : Nat,
        getByte (List.replicate 2 [255, 0, 0, 255, 0, 0, 255, 0, 0, 255, 0, 0]) i k
          = some a ∧
        getByte (List.replicate 2 [0, 0, 255, 0, 0, 255, 0, 0, 255, 0, 0, 255]) i k
          = some b ∧
        getByte out i k = some ((a + b) / 2)) ∧
    alphablend_serial (List.replicate 2 [255, 0, 0, 255, 0, 0, 255, 0, 0, 255, 0, 0])
      (List.replicate 2 [0, 0, 255, 0, 0, 255, 0, 0, 255, 0, 0, 255])
      (allocBuffer 4 2) 4 2
      = some (List.replicate 2 [127, 0, 127, 127, 0, 127, 127, 0, 127, 127, 0, 127]) :=
  ⟨⟨by decide, by decide⟩,
    alphablend_spec (List.replicate 2 [255, 0, 0, 255, 0, 0, 255, 0, 0, 255, 0, 0])
      (List.replicate 2 [0, 0, 255, 0, 0, 255, 0, 0, 255, 0, 0, 255]) 4 2
      (by decide) (by decide) (by decide) (by decide),
    by decide⟩

/-- Claim C4 (code bug): on a width that is not a multiple of 4 the
4-column-unrolled kernel reads and writes columns j+1..j+3 past the end of
the row (undefined behavior in the C program).  At the failing input of a
1-by-1 image the modelled parallel kernel faults (returns none) while the
serial kernel produces the promised output, so the two cannot be
byte-identical for all widths as the claim states. -/
theorem grayscale_parallel_out_of_bounds :
    grayscale_parallel [[0, 0, 0]] (allocBuffer 1 1) 1 1 = none ∧
    grayscale_serial [[0, 0, 0]] (allocBuffer 1 1) 1 1 = some [[0, 0, 0]] := by decide

/-- Claim C5 (code bug): on an odd height the pair-of-rows kernel reads
row i+1 = height, which does not exist (undefined behavior in the C
program).  At the failing input of a 1-by-1 image the modelled parallel
kernel faults (returns none) while the serial kernel succeeds, so the two
cannot be bit-identical for every height as the claim states. -/
theorem transpose_parallel_out_of_bounds :
    transpose_parallel [[7, 8, 9]] (allocBuffer 1 1) 1 1 = none ∧
    transpose_serial [[7, 8, 9]] (allocBuffer 1 1) 1 1 = some [[7, 8, 9]] := by decide

/-- Claim C6: the destination map (i, j) to (W-1-j, i) used by the
transpose kernels is a bijection from the H-by-W input index grid onto the
W-by-H output index grid, so every destination pixel is written exactly
once. -/
theorem transposeIdx_bijOn (w h : Nat) :
    Set.BijOn (transposeIdx w) {p : Nat × Nat | p.1 < h ∧ p.2 < w}
      {p : Nat × Nat | p.1 < w ∧ p.2 < h} := by
  refine ⟨?_, ?_, ?_⟩
  · intro p hp
    simp only [Set.mem_setOf_eq] at hp ⊢
    unfold transposeIdx
    exact ⟨by omega, hp.1⟩
  · intro p hp q hq hpq
    simp only [Set.mem_setOf_eq] at hp hq
    obtain ⟨p1, p2⟩ := p
    obtain ⟨q1, q2⟩ := q
    simp only [transposeIdx, Prod.mk.injEq] at hpq
    simp only [Prod.mk.injEq]
    simp only at hp hq
    omega
  · intro q hq
    simp only [Set.mem_setOf_eq] at hq
    obtain ⟨q1, q2⟩ := q
    simp only at hq
    refine ⟨(q2, w - 1 - q1), ?_, ?_⟩
    · simp only [Set.mem_setOf_eq]
      exact ⟨hq.2, by omega⟩
    · show (w - 1 - (w - 1 - q1), q2) = (q1, q2)
      refine Prod.ext ?_ rfl
      omega

/-- Claim C7: applying the transpose program twice to a well-formed W-by-H
image yields an image with the original W-by-H dimensions, and applying it
four times returns exactly the original image. -/
theorem transpose_four_times_identity (img : Image) (hwf : wfImage img) :
    (∃ img2 : Image, (transposeImage img).bind transposeImage = some img2 ∧
      img2.width = img.width ∧ img2.height = img.height) ∧
    (((transposeImage img).bind transposeImage).bind transposeImage).bind transposeImage
      = some img := by
  obtain ⟨img2, h2, hw2, hh2, hwf2, hpt2⟩ := transposeImage_twice_char hwf
  obtain ⟨img4, h4, hw4, hh4, hwf4, hpt4⟩ := transposeImage_twice_char hwf2
  refine ⟨⟨img2, h2, hw2, hh2⟩, ?_⟩
  have hchain : (((transposeImage img).bind transposeImage).bind transposeImage).bind
      transposeImage = some img4 := by
    rw [h2, Option.some_bind]
    exact h4
  rw [hchain]
  have ew : img4.width = img.width := by rw [hw4, hw2]
  have eh : img4.height = img.height := by rw [hh4, hh2]
  have h4wf : wfBuffer img4.buf img.width img.height := by
    have hx := hwf4
    unfold wfImage at hx
    rwa [ew, eh] at hx
  rw [hw2, hh2] at hpt4
  have hbuf : img4.buf = img.buf := by
    apply buffer_ext h4wf hwf
    intro t ht k hk
    rw [hpt4 t k ht hk,
      hpt2 (img.height - 1 - t) ((img.width - 1 - k / 3) * 3 + k % 3) (by omega) (by omega)]
    have e2 : ((img.width - 1 - k / 3) * 3 + k % 3) / 3 = img.width - 1 - k / 3 := by omega
    have e3 : ((img.width - 1 - k / 3) * 3 + k % 3) % 3 = k % 3 := by omega
    rw [e2, e3]
    have e1 : img.height - 1 - (img.height - 1 - t) = t := by omega
    have e4 : img.width - 1 - (img.width - 1 - k / 3) = k / 3 := by omega
    rw [e1, e4]
    have e5 : k / 3 * 3 + k % 3 = k := by omega
    rw [e5]
  congr 1
  calc img4 = ⟨img4.width, img4.height, img4.buf⟩ := rfl
  _ = ⟨img.width, img.height, img.buf⟩ := by rw [ew, eh, hbuf]
  _ = img := rfl

/-- Witness for claim C7 at a concrete 2-by-1 image. -/
theorem transpose_four_times_identity_witness :
    wfImage ⟨2, 1, [[1, 2, 3, 4, 5, 6]]⟩ ∧
    ((∃ img2 : Image,
        (transposeImage ⟨2, 1, [[1, 2, 3, 4, 5, 6]]⟩).bind transposeImage = some img2 ∧
        img2.width = 2 ∧ img2.height = 1) ∧
      (((transposeImage ⟨2, 1, [[1, 2, 3, 4, 5, 6]]⟩).bind transposeImage).bind
          transposeImage).bind transposeImage = some ⟨2, 1, [[1, 2, 3, 4, 5, 6]]⟩) :=
  ⟨by decide, transpose_four_times_identity ⟨2, 1, [[1, 2, 3, 4, 5, 6]]⟩ (by decide)⟩

/-- Claim C8: blending a well-formed byte buffer with itself returns
exactly the original buffer: floor((a + a) / 2) = a for every byte. -/
theorem alphablend_self_identity (A : Buffer) (w h : Nat)
    (hwf : wfBuffer A w h) (hb : byteBounded A) :
    alphablend_serial A A (allocBuffer w h) w h = some A := by
  obtain ⟨out, hrun, hwfout, hpt⟩ := alphablend_serial_char hwf hwf (wf_allocBuffer w h)
  rw [hrun]
  congr 1
  apply buffer_ext hwfout hwf
  intro t ht k hk
  rw [hpt t k, if_pos ⟨ht, hk⟩]
  obtain ⟨row, hrow, hlen⟩ := exists_row_of_rowLen (hwf.2 t ht)
  rw [getByte_eq_some_byteAt k hrow (by omega)]
  have ha := byteAt_lt_of_byteBounded hwf hb ht hk
  simp only [blendDst, blendVal_eq_avg _ _ ha ha]
  have e : (byteAt A t k + byteAt A t k) / 2 = byteAt A t k := by omega
  rw [e]

/-- Witness for claim C8 at a concrete 1-by-1 buffer. -/
theorem alphablend_self_identity_witness :
    (wfBuffer [[10, 20, 30]] 1 1 ∧ byteBounded [[10, 20, 30]]) ∧
    alphablend_serial [[10, 20, 30]] [[10, 20, 30]] (allocBuffer 1 1) 1 1
      = some [[10, 20, 30]] :=
  ⟨⟨by decide, by decide⟩, alphablend_self_identity [[10, 20, 30]] 1 1 (by decide) (by decide)⟩

/-- Claim C9: whenever the two decoded input images differ in width or in
height, the alpha-blend program's main stops with the dimension-mismatch
error (modelling its diagnostic message and exit with a non-zero status)
before allocating the output or running any pixel computation; no output
image is produced. -/
theorem alphablend_dimension_mismatch (img1 img2 : Image)
    (hne : img1.width ≠ img2.width ∨ img1.height ≠ img2.height) :
    alphablendMain img1 img2 = Except.error DriverError.dimensionMismatch := by
  unfold alphablendMain
  rw [if_pos hne]

/-- Witness for claim C9: a 10-by-10 image against a 10-by-11 image. -/
theorem alphablend_dimension_mismatch_witness :
    alphablendMain ⟨10, 10, allocBuffer 10 10⟩ ⟨10, 11, allocBuffer 10 11⟩
      = Except.error DriverError.dimensionMismatch :=
  alphablend_dimension_mismatch ⟨10, 10, allocBuffer 10 10⟩ ⟨10, 11, allocBuffer 10 11⟩
    (Or.inr (by decide))

/-- Claim C10: every channel of every AlphaBlend output pixel lies between
the minimum and the maximum of the two corresponding input channel values
(inclusive): the output byte is floor((a + b) / 2). -/
theorem alphablend_bounds (in1 in2 : Buffer) (w h : Nat)
    (h1 : wfBuffer in1 w h) (h2 : wfBuffer in2 w h)
    (hb1 : byteBounded in1) (hb2 : byteBounded in2) :
    ∃ out : Buffer, alphablend_serial in1 in2 (allocBuffer w h) w h = some out ∧
      ∀ i < h, ∀ k < 3 * w, ∃ a b v : Nat,
        getByte in1 i k = some a ∧ getByte in2 i k = some b ∧
        getByte out i k = some v ∧ min a b ≤ v ∧ v ≤ max a b := by
  obtain ⟨out, hrun, hwfout, hpt⟩ := alphablend_serial_char h1 h2 (wf_allocBuffer w h)
  refine ⟨out, hrun, fun i hi k hk => ?_⟩
  obtain ⟨r1, hr1, hl1⟩ := exists_row_of_rowLen (h1.2 i hi)
  obtain ⟨r2, hr2, hl2⟩ := exists_row_of_rowLen (h2.2 i hi)
  have ha := byteAt_lt_of_byteBounded h1 hb1 hi hk
  have hbb := byteAt_lt_of_byteBounded h2 hb2 hi hk
  refine ⟨byteAt in1 i k, byteAt in2 i k, (byteAt in1 i k + byteAt in2 i k) / 2,
    getByte_eq_some_byteAt k hr1 (by omega), getByte_eq_some_byteAt k hr2 (by omega),
    ?_, by omega, by omega⟩
  rw [hpt i k, if_pos ⟨hi, hk⟩]
  simp only [blendDst, blendVal_eq_avg _ _ ha hbb]

/-- Witness for claim C10 at a concrete 1-by-1 pair (also checking the
concrete blended buffer). -/
theorem alphablend_bounds_witness :
    (wfBuffer [[0, 100, 255]] 1 1 ∧ wfBuffer [[255, 50, 255]] 1 1) ∧
    (∃ out : Buffer, alphablend_serial [[0, 100, 255]] [[255, 50, 255]]
        (allocBuffer 1 1) 1 1 = some out ∧
      ∀ i < 1, ∀ k < 3 * 1, ∃ a b v : Nat,
        getByte [[0, 100, 255]] i k = some a ∧ getByte [[255, 50, 255]] i k = some b ∧
        getByte out i k = some v ∧ min a b ≤ v ∧ v ≤ max a b) ∧
    alphablend_serial [[0, 100, 255]] [[255, 50, 255]] (allocBuffer 1 1) 1 1
      = some [[127, 75, 255]] :=
  ⟨⟨by decide, by decide⟩,
    alphablend_bounds [[0, 100, 255]] [[255, 50, 255]] 1 1
      (by decide) (by decide) (by decide) (by decide),
    by decide⟩

end ImageProcessing
